import Mathlib

/-!
Verification of the unified-diff parser/renderer of the diff-viewer
repository (`src/diffPanel.ts`, `parseDiff` and `escapeHtml`) and of the
pure parsing core of the diff-summary collector (`src/gitService.ts`,
`getDiffSummary`).

The JavaScript string primitives used by the source (`split`,
`startsWith`, single-character global `replace`, `substring(1)`,
`trim`, `parseInt`) are embedded as executable Lean functions over
`String` / `List Char` with the same semantics.  The renderer's three
string accumulators (`inlineHtml`, `leftHtml`, `rightHtml`) are
modelled as three independent lists of row records, one record per
`<div class="diff-line">` appended by the source; each branch appends
to the three lists separately, exactly as the source appends to the
three strings.
-/

namespace DiffViewer

/-- JS `s.split(c)` on a single-character separator, on char lists:
`"" → [""]`, trailing separators produce trailing empty fields. -/
def splitOnCharL (c : Char) : List Char → List (List Char)
  | [] => [[]]
  | x :: xs =>
    if x = c then [] :: splitOnCharL c xs
    else
      match splitOnCharL c xs with
      | [] => [[x]]
      | h :: t => (x :: h) :: t

/-- JS `s.split(c)` for a single-character separator. -/
def jsSplit (c : Char) (s : String) : List String :=
  (splitOnCharL c s.data).map fun l => ⟨l⟩

/-- Boolean prefix test on char lists (JS `String.prototype.startsWith`). -/
def isPrefixL : List Char → List Char → Bool
  | [], _ => true
  | _ :: _, [] => false
  | c :: cs, d :: ds => c == d && isPrefixL cs ds

/-- JS `s.startsWith(pre)`. -/
def jsStartsWith (s pre : String) : Bool :=
  isPrefixL pre.data s.data

/-- Global single-character replacement (JS `s.replace(/c/g, r)`). -/
def replaceAllChar (c : Char) (r : List Char) : List Char → List Char
  | [] => []
  | x :: xs => if x = c then r ++ replaceAllChar c r xs else x :: replaceAllChar c r xs

/-- `escapeHtml` from `diffPanel.ts`: replace `&` by `&amp;`, then `<` by
`&lt;`, then `>` by `&gt;`, then `"` by `&quot;`, each globally, in the
source's order. -/
def escapeHtml (s : String) : String :=
  ⟨replaceAllChar '"' ['&', 'q', 'u', 'o', 't', ';']
    (replaceAllChar '>' ['&', 'g', 't', ';']
      (replaceAllChar '<' ['&', 'l', 't', ';']
        (replaceAllChar '&' ['&', 'a', 'm', 'p', ';'] s.data)))⟩

/-- Character-wise escaping map, written from the spec's words: each of
the characters `&`, `<`, `>`, `"` is replaced by its escape sequence,
every other character is kept.  Used to state that `escapeHtml`
refines it. -/
def escChar (c : Char) : List Char :=
  if c = '&' then ['&', 'a', 'm', 'p', ';']
  else if c = '<' then ['&', 'l', 't', ';']
  else if c = '>' then ['&', 'g', 't', ';']
  else if c = '"' then ['&', 'q', 'u', 'o', 't', ';']
  else [c]

/-- Character-wise escaping of a whole char list. -/
def escapeL : List Char → List Char
  | [] => []
  | c :: cs => escChar c ++ escapeL cs

/-- Character-wise escaping of a string (the spec-side description of
`escapeHtml`). -/
def escapeSpec (s : String) : String :=
  ⟨escapeL s.data⟩

/-- Numeric value of a digit run, most significant digit first
(the value the regex capture `(\d+)` denotes). -/
def digitsVal (ds : List Char) : Nat :=
  ds.foldl (fun a c => a * 10 + (c.toNat - 48)) 0

/-- Maximal-munch parse of `(\d+)`: the leading digit run and the rest;
`none` when there is no leading digit. -/
def parseDigits (l : List Char) : Option (Nat × List Char) :=
  if l.takeWhile Char.isDigit = [] then none
  else some (digitsVal (l.takeWhile Char.isDigit), l.dropWhile Char.isDigit)

/-- Skip the regex fragment `,?\d*` when it follows a maximal digit run:
a comma, if present, together with the digit run after it. -/
def skipCount : List Char → List Char
  | ',' :: rest => rest.dropWhile Char.isDigit
  | l => l

/-- Tail of the hunk-header match after both numbers: the closing
` @@` and the context capture `(.*)`. -/
def hunkMatchEnd (o n : Nat) : List Char → Option (Nat × Nat × String)
  | ' ' :: '@' :: '@' :: ctx => some (o, n, ⟨ctx⟩)
  | _ => none

/-- The hunk-header match after the literal ` +`: the fragment
`(\d+),?\d*` and then the tail. -/
def hunkMatchAfterNew (o : Nat) (r3 : List Char) : Option (Nat × Nat × String) :=
  match parseDigits r3 with
  | none => none
  | some (n, r4) => hunkMatchEnd o n (skipCount r4)

/-- Middle of the hunk-header match: the literal ` +` and then the new
number. -/
def hunkMatchMid (o : Nat) : List Char → Option (Nat × Nat × String)
  | ' ' :: '+' :: r3 => hunkMatchAfterNew o r3
  | _ => none

/-- The hunk-header match after the literal `@@ -`: the fragment
`(\d+),?\d*` and then the middle. -/
def hunkMatchAfterOld (r1 : List Char) : Option (Nat × Nat × String) :=
  match parseDigits r1 with
  | none => none
  | some (o, r2) => hunkMatchMid o (skipCount r2)

/-- The hunk-header match of `diffPanel.ts`:
`line.match(/^@@ -(\d+),?\d* \+(\d+),?\d* @@(.*)/)`, returning the two
captured start numbers and the trailing context capture. -/
def hunkMatch (line : String) : Option (Nat × Nat × String) :=
  match line.data with
  | '@' :: '@' :: ' ' :: '-' :: r1 => hunkMatchAfterOld r1
  | _ => none

/-- JS `s.substring(1)`: the string without its first character. -/
def dropFirstChar (s : String) : String :=
  ⟨s.data.drop 1⟩

/-- The metadata test of `parseDiff`: lines beginning with `diff --git`,
`index `, `---` or `+++` are skipped. -/
def metaGuard (line : String) : Bool :=
  jsStartsWith line "diff --git" || jsStartsWith line "index " ||
    jsStartsWith line "---" || jsStartsWith line "+++"

/-- The CSS class of an emitted `diff-line` div. -/
inductive RowKind where
  | context
  | add
  | del
  | hunk
  | empty
  deriving DecidableEq

/-- One `line-content` span: whether it has the `editable` class, its
`data-file` and `data-line` attributes, and its (escaped) text. -/
structure Cell where
  editable : Bool
  dataFile : Option String
  dataLine : Option Nat
  text : String
  deriving DecidableEq

/-- One row of the inline view: kind, the two `line-num` cells, and the
content cell. -/
structure InlineRow where
  kind : RowKind
  oldNum : Option Nat
  newNum : Option Nat
  content : Cell
  deriving DecidableEq

/-- One row of a split pane: kind, the single `line-num` cell, and the
content cell. -/
structure PaneRow where
  kind : RowKind
  num : Option Nat
  content : Cell
  deriving DecidableEq

/-- The padding row `<div class="diff-line empty">…</div>`. -/
def emptyRow : PaneRow :=
  ⟨.empty, none, ⟨false, none, none, ""⟩⟩

/-- The inline hunk-header row, carrying the escaped raw header text. -/
def hunkInlineRow (line : String) : InlineRow :=
  ⟨.hunk, none, none, ⟨false, none, none, escapeHtml line⟩⟩

/-- The pane hunk-header row, carrying the escaped raw header text. -/
def hunkPaneRow (line : String) : PaneRow :=
  ⟨.hunk, none, ⟨false, none, none, escapeHtml line⟩⟩

/-- The mutable state of `parseDiff`'s scan: the two counters and the
three accumulated row lists. -/
structure ParseState where
  old : Nat
  new : Nat
  inl : List InlineRow
  left : List PaneRow
  right : List PaneRow
  deriving DecidableEq

/-- One iteration of the `for (const line of lines)` loop of
`parseDiff`, with `ef` the pre-escaped file path. -/
def processLine (ef : String) (st : ParseState) (line : String) : ParseState :=
  if metaGuard line then st
  else
    match hunkMatch line with
    | some (o, n, _) =>
      ⟨o, n, st.inl ++ [hunkInlineRow line],
        st.left ++ [hunkPaneRow line], st.right ++ [hunkPaneRow line]⟩
    | none =>
      let contentWithoutPrefix : String := if line.length > 0 then dropFirstChar line else ""
      if jsStartsWith line "+" then
        ⟨st.old, st.new + 1,
          st.inl ++ [⟨.add, none, some st.new,
            ⟨true, some ef, some st.new, escapeHtml contentWithoutPrefix⟩⟩],
          st.left ++ [emptyRow],
          st.right ++ [⟨.add, some st.new,
            ⟨true, some ef, some st.new, escapeHtml contentWithoutPrefix⟩⟩]⟩
      else if jsStartsWith line "-" then
        ⟨st.old + 1, st.new,
          st.inl ++ [⟨.del, some st.old, none, ⟨false, none, none, escapeHtml line⟩⟩],
          st.left ++ [⟨.del, some st.old, ⟨false, none, none, escapeHtml contentWithoutPrefix⟩⟩],
          st.right ++ [emptyRow]⟩
      else if line.length > 0 then
        let contextContent : String := if jsStartsWith line " " then dropFirstChar line else line
        ⟨st.old + 1, st.new + 1,
          st.inl ++ [⟨.context, some st.old, some st.new,
            ⟨true, some ef, some st.new, escapeHtml contextContent⟩⟩],
          st.left ++ [⟨.context, some st.old, ⟨false, none, none, escapeHtml contextContent⟩⟩],
          st.right ++ [⟨.context, some st.new,
            ⟨true, some ef, some st.new, escapeHtml contextContent⟩⟩]⟩
      else st

/-- The whole scan over a list of lines. -/
def parseLines (ef : String) (st : ParseState) (lines : List String) : ParseState :=
  lines.foldl (processLine ef) st

/-- The renderer's output: the rows of the inline view and of the left
and right split panes. -/
structure RenderedDiff where
  inl : List InlineRow
  left : List PaneRow
  right : List PaneRow
  deriving DecidableEq

/-- `parseDiff(diff, filePath)` from `diffPanel.ts`: the early return on
empty diff text, the split on newlines, and the scan, with counters
starting at 0. -/
def parseDiff (diff filePath : String) : RenderedDiff :=
  if diff = "" then ⟨[], [], []⟩
  else
    let st := parseLines (escapeHtml filePath) ⟨0, 0, [], [], []⟩ (jsSplit '\n' diff)
    ⟨st.inl, st.left, st.right⟩

/-! Source-line provenance: the same scan, with every emitted row tagged
by the index of the source diff line that produced it.  Erasing the
tags recovers `parseDiff`; the tag lists of the three views being equal
expresses that row `i` of each view comes from the same source line. -/

/-- Scan state with source-line tags on every row. -/
structure ParseStateSrc where
  old : Nat
  new : Nat
  inl : List (InlineRow × Nat)
  left : List (PaneRow × Nat)
  right : List (PaneRow × Nat)

/-- One loop iteration of the tagged scan; `il` is the (index, line)
pair of the current source diff line. -/
def processLineSrc (ef : String) (st : ParseStateSrc) (il : Nat × String) : ParseStateSrc :=
  let i := il.1
  let line := il.2
  if metaGuard line then st
  else
    match hunkMatch line with
    | some (o, n, _) =>
      ⟨o, n, st.inl ++ [(hunkInlineRow line, i)],
        st.left ++ [(hunkPaneRow line, i)], st.right ++ [(hunkPaneRow line, i)]⟩
    | none =>
      let contentWithoutPrefix : String := if line.length > 0 then dropFirstChar line else ""
      if jsStartsWith line "+" then
        ⟨st.old, st.new + 1,
          st.inl ++ [(⟨.add, none, some st.new,
            ⟨true, some ef, some st.new, escapeHtml contentWithoutPrefix⟩⟩, i)],
          st.left ++ [(emptyRow, i)],
          st.right ++ [(⟨.add, some st.new,
            ⟨true, some ef, some st.new, escapeHtml contentWithoutPrefix⟩⟩, i)]⟩
      else if jsStartsWith line "-" then
        ⟨st.old + 1, st.new,
          st.inl ++ [(⟨.del, some st.old, none, ⟨false, none, none, escapeHtml line⟩⟩, i)],
          st.left ++ [(⟨.del, some st.old, ⟨false, none, none, escapeHtml contentWithoutPrefix⟩⟩, i)],
          st.right ++ [(emptyRow, i)]⟩
      else if line.length > 0 then
        let contextContent : String := if jsStartsWith line " " then dropFirstChar line else line
        ⟨st.old + 1, st.new + 1,
          st.inl ++ [(⟨.context, some st.old, some st.new,
            ⟨true, some ef, some st.new, escapeHtml contextContent⟩⟩, i)],
          st.left ++ [(⟨.context, some st.old, ⟨false, none, none, escapeHtml contextContent⟩⟩, i)],
          st.right ++ [(⟨.context, some st.new,
            ⟨true, some ef, some st.new, escapeHtml contextContent⟩⟩, i)]⟩
      else st

/-- The tagged scan over indexed lines. -/
def parseLinesSrc (ef : String) (st : ParseStateSrc) (pls : List (Nat × String)) : ParseStateSrc :=
  pls.foldl (processLineSrc ef) st

/-- The renderer with source-line provenance tags. -/
def parseDiffSrc (diff filePath : String) :
    List (InlineRow × Nat) × List (PaneRow × Nat) × List (PaneRow × Nat) :=
  if diff = "" then ([], [], [])
  else
    let st := parseLinesSrc (escapeHtml filePath) ⟨0, 0, [], [], []⟩ ((jsSplit '\n' diff).enum)
    (st.inl, st.left, st.right)

/-! The pure parsing core of `getDiffSummary` from `gitService.ts`: given
the stdout of `git diff --numstat` and of `git diff --name-status`, build
the list of per-file change records. -/

/-- JS `s.trim()`: strip leading and trailing whitespace. -/
def jsTrim (s : String) : String :=
  ⟨((s.data.dropWhile Char.isWhitespace).reverse.dropWhile Char.isWhitespace).reverse⟩

/-- JS `parseInt(s, 10)`: skip leading whitespace, read an optional
sign and a leading digit run; `none` models the `NaN` result. -/
def jsParseInt (s : String) : Option Int :=
  let digits : List Char → Option Int := fun l =>
    if l.takeWhile Char.isDigit = [] then none
    else some (digitsVal (l.takeWhile Char.isDigit) : Nat)
  match s.data.dropWhile Char.isWhitespace with
  | '-' :: r => (digits r).map (fun v => -v)
  | '+' :: r => digits r
  | l => digits l

/-- The file status letters of `gitService.ts`. -/
inductive GitStatus where
  | added
  | modified
  | deleted
  | renamed
  deriving DecidableEq

/-- One per-file record of the diff summary (`DiffResult` in
`gitService.ts`); the counts are JS numbers, `none` modelling `NaN`. -/
structure DiffResult where
  file : String
  status : GitStatus
  additions : Option Int
  deletions : Option Int
  deriving DecidableEq

/-- Parse one `git diff --numstat` output line: split on tabs, require
at least three fields; a `"-"` additions/deletions field maps to `0`,
any other field goes through `parseInt`. -/
def parseNumstatLine (line : String) : Option DiffResult :=
  match jsSplit '\t' line with
  | a :: b :: f :: _ =>
    some ⟨f, .modified,
      if a = "-" then some 0 else jsParseInt a,
      if b = "-" then some 0 else jsParseInt b⟩
  | _ => none

/-- Classify a `--name-status` status field by its first character
(`status[0]` in the source); anything else, including the empty field,
is `modified`. -/
def classifyStatus (status : String) : GitStatus :=
  match status.data with
  | 'A' :: _ => .added
  | 'D' :: _ => .deleted
  | 'R' :: _ => .renamed
  | _ => .modified

/-- The entries put into `statusMap`, in insertion order: for each
non-blank `--name-status` line, the last tab-separated field (the file
name; `none` models the `undefined` of a line with no tab) mapped to
the classified status. -/
def statusEntries (statusOut : String) : List (Option String × GitStatus) :=
  ((jsSplit '\n' statusOut).filter fun l => jsTrim l ≠ "").map fun line =>
    let parts := jsSplit '\t' line
    ((parts.drop 1).getLast?, classifyStatus (parts.headD ""))

/-- `Map.get`: the value of the last entry inserted for the key. -/
def mapGet (es : List (Option String × GitStatus)) (f : String) : Option GitStatus :=
  (es.reverse.find? fun e => e.1 = some f).map (·.2)

/-- The pure core of `getDiffSummary`: parse the non-blank numstat
lines, then overwrite each record's status with the joined
`--name-status` entry, defaulting to `modified`. -/
def getDiffSummary (numstatOut statusOut : String) : List DiffResult :=
  let results :=
    ((jsSplit '\n' numstatOut).filter fun l => jsTrim l ≠ "").filterMap parseNumstatLine
  let entries := statusEntries statusOut
  results.map fun r => { r with status := (mapGet entries r.file).getD .modified }

/-- The untagged scan state is the tag-erasure of the tagged one, and
the three views' source-line tags agree position by position. -/
def SrcAligned (st : ParseState) (stS : ParseStateSrc) : Prop :=
  st.old = stS.old ∧ st.new = stS.new ∧
  st.inl = stS.inl.map Prod.fst ∧ st.left = stS.left.map Prod.fst ∧
  st.right = stS.right.map Prod.fst ∧
  stS.inl.map Prod.snd = stS.left.map Prod.snd ∧
  stS.left.map Prod.snd = stS.right.map Prod.snd

/-- The decimal digit character for a value below ten (values ten and
above all map to `9`; only used below ten). -/
def digitChar (n : Nat) : Char :=
  match n with
  | 0 => '0' | 1 => '1' | 2 => '2' | 3 => '3' | 4 => '4'
  | 5 => '5' | 6 => '6' | 7 => '7' | 8 => '8' | _ => '9'

/-- The decimal digit string of a natural number, most significant
digit first. -/
def natToDigits (n : Nat) : List Char :=
  if _h : n < 10 then [digitChar n]
  else natToDigits (n / 10) ++ [digitChar (n % 10)]
decreasing_by
  exact Nat.div_lt_self (by omega) (by omega)

/-- The decimal numeral of a natural number. -/
def natToString (n : Nat) : String :=
  ⟨natToDigits n⟩

/-- The optional `,<count>` fragment of a hunk header. -/
def countStr : Option Nat → String
  | some c => "," ++ natToString c
  | none => ""

/-- A well-formed hunk header
`@@ -<oldStart>[,<oldCount>] +<newStart>[,<newCount>] @@<context>`. -/
def mkHunkHeader (o : Nat) (oc : Option Nat) (n : Nat) (nc : Option Nat)
    (ctx : String) : String :=
  "@@ -" ++ natToString o ++ countStr oc ++ " +" ++ natToString n ++ countStr nc
    ++ " @@" ++ ctx

/-- An inline row's carried line numbers are positive: a context or
deletion row carries an `oldLineNumber ≥ 1`, a context or addition row
carries a `newLineNumber ≥ 1` (note `none.getD 0 = 0`, so `1 ≤ getD 0`
also asserts the number is present). -/
def inlineRowPos (r : InlineRow) : Prop :=
  ((r.kind = RowKind.context ∨ r.kind = RowKind.del) → 1 ≤ r.oldNum.getD 0) ∧
  ((r.kind = RowKind.context ∨ r.kind = RowKind.add) → 1 ≤ r.newNum.getD 0)

/-- A left-pane context or deletion row carries a positive (old) line
number. -/
def paneRowPosLeft (r : PaneRow) : Prop :=
  (r.kind = RowKind.context ∨ r.kind = RowKind.del) → 1 ≤ r.num.getD 0

/-- A right-pane context or addition row carries a positive (new) line
number. -/
def paneRowPosRight (r : PaneRow) : Prop :=
  (r.kind = RowKind.context ∨ r.kind = RowKind.add) → 1 ≤ r.num.getD 0

instance (r : InlineRow) : Decidable (inlineRowPos r) := by
  unfold inlineRowPos
  infer_instance

instance (r : PaneRow) : Decidable (paneRowPosLeft r) := by
  unfold paneRowPosLeft
  infer_instance

instance (r : PaneRow) : Decidable (paneRowPosRight r) := by
  unfold paneRowPosRight
  infer_instance

/-- All rows accumulated so far carry positive line numbers. -/
def StatePos (st : ParseState) : Prop :=
  (∀ r ∈ st.inl, inlineRowPos r) ∧ (∀ r ∈ st.left, paneRowPosLeft r) ∧
  (∀ r ∈ st.right, paneRowPosRight r)

/-- A line is harmless for positivity: either it is not a hunk header,
or its declared start numbers are both positive. -/
def headerOkB (l : String) : Bool :=
  match hunkMatch l with
  | some (o, n, _) => o != 0 && n != 0
  | none => true

/-- Every hunk header among the lines declares positive start
numbers. -/
def headersOk (lines : List String) : Bool :=
  lines.all headerOkB

/-- No content line occurs before the first hunk header: skipped lines
(metadata, empty) may precede it, and everything from the first header
on is unconstrained. -/
def noContentBeforeHeader : List String → Bool
  | [] => true
  | l :: ls =>
    if metaGuard l || l == "" then noContentBeforeHeader ls
    else (hunkMatch l).isSome

/-- The composed replacement pipeline of `escapeHtml` on char lists:
`&` first, then `<`, then `>`, then `"`. -/
def escPipe (l : List Char) : List Char :=
  replaceAllChar '"' ['&', 'q', 'u', 'o', 't', ';']
    (replaceAllChar '>' ['&', 'g', 't', ';']
      (replaceAllChar '<' ['&', 'l', 't', ';']
        (replaceAllChar '&' ['&', 'a', 'm', 'p', ';'] l)))

/-- A content cell is fully escaped: its text and its `data-file`
attribute (when present) are images of `escapeHtml`. -/
def CellEsc (cell : Cell) : Prop :=
  (∃ u, cell.text = escapeHtml u) ∧ (∀ f, cell.dataFile = some f → ∃ u, f = escapeHtml u)

/-- Every accumulated row's content cell is fully escaped. -/
def StateEsc (st : ParseState) : Prop :=
  (∀ r ∈ st.inl, CellEsc r.content) ∧ (∀ r ∈ st.left, CellEsc r.content) ∧
  (∀ r ∈ st.right, CellEsc r.content)

/-! ### Step lemmas for the scan of `parseDiff` -/

theorem length_pos_of_data_cons {s : String} {c : Char} {t : List Char}
    (h : s.data = c :: t) : s.length > 0 := by
  have : s.length = s.data.length := rfl
  rw [this, h]
  exact Nat.succ_pos _

theorem jsStartsWith_false_of_head {s : String} {c : Char} {t : List Char}
    {p : String} {d : Char} {pt : List Char}
    (hs : s.data = c :: t) (hp : p.data = d :: pt) (hne : d ≠ c) :
    jsStartsWith s p = false := by
  simp [jsStartsWith, hs, hp, isPrefixL, hne]

theorem metaGuard_false_of_head_del {line : String} {t : List Char}
    (hl : line.data = '-' :: t) (h3 : jsStartsWith line "---" = false) :
    metaGuard line = false := by
  have h1 : jsStartsWith line "diff --git" = false :=
    jsStartsWith_false_of_head hl rfl (by decide)
  have h2 : jsStartsWith line "index " = false :=
    jsStartsWith_false_of_head hl rfl (by decide)
  have h4 : jsStartsWith line "+++" = false :=
    jsStartsWith_false_of_head hl rfl (by decide)
  simp [metaGuard, h1, h2, h3, h4]

theorem metaGuard_false_of_head_add {line : String} {t : List Char}
    (hl : line.data = '+' :: t) (h3 : jsStartsWith line "+++" = false) :
    metaGuard line = false := by
  have h1 : jsStartsWith line "diff --git" = false :=
    jsStartsWith_false_of_head hl rfl (by decide)
  have h2 : jsStartsWith line "index " = false :=
    jsStartsWith_false_of_head hl rfl (by decide)
  have h4 : jsStartsWith line "---" = false :=
    jsStartsWith_false_of_head hl rfl (by decide)
  simp [metaGuard, h1, h2, h3, h4]

theorem hunkMatch_none_of_head {line : String} {c : Char} {t : List Char}
    (hl : line.data = c :: t) (hc : c ≠ '@') : hunkMatch line = none := by
  unfold hunkMatch
  rw [hl]
  rcases t with _ | ⟨c2, t⟩
  · simp [hc]
  · rcases t with _ | ⟨c3, t⟩
    · simp [hc]
    · rcases t with _ | ⟨c4, t⟩
      · simp [hc]
      · simp [hc]

/-- The deletion branch of the scan: a line starting with `-` that is
not metadata appends one `del` row to the inline view (text: the full
line, escaped), one `del` row to the left pane (text: the line with the
marker stripped, escaped), and one empty row to the right pane, all
numbered with the current old counter, then increments the old
counter. -/
theorem processLine_del (ef : String) (st : ParseState) (line : String)
    {t : List Char} (hl : line.data = '-' :: t)
    (h3 : jsStartsWith line "---" = false) :
    processLine ef st line =
      ⟨st.old + 1, st.new,
        st.inl ++ [⟨.del, some st.old, none, ⟨false, none, none, escapeHtml line⟩⟩],
        st.left ++ [⟨.del, some st.old, ⟨false, none, none, escapeHtml (dropFirstChar line)⟩⟩],
        st.right ++ [emptyRow]⟩ := by
  have hm : metaGuard line = false := metaGuard_false_of_head_del hl h3
  have hk : hunkMatch line = none := hunkMatch_none_of_head hl (by decide)
  have hplus : jsStartsWith line "+" = false :=
    jsStartsWith_false_of_head hl rfl (by decide)
  have hminus : jsStartsWith line "-" = true := by
    simp [jsStartsWith, hl, isPrefixL]
  have hlen : line.length > 0 := length_pos_of_data_cons hl
  simp [processLine, hm, hk, hplus, hminus, hlen]

/-- The addition branch of the scan: a line starting with `+` that is
not metadata appends one editable `add` row to the inline view and the
right pane (text: the line with the marker stripped, escaped) and one
empty row to the left pane, numbered with the current new counter, then
increments the new counter. -/
theorem processLine_add (ef : String) (st : ParseState) (line : String)
    {t : List Char} (hl : line.data = '+' :: t)
    (h3 : jsStartsWith line "+++" = false) :
    processLine ef st line =
      ⟨st.old, st.new + 1,
        st.inl ++ [⟨.add, none, some st.new,
          ⟨true, some ef, some st.new, escapeHtml (dropFirstChar line)⟩⟩],
        st.left ++ [emptyRow],
        st.right ++ [⟨.add, some st.new,
          ⟨true, some ef, some st.new, escapeHtml (dropFirstChar line)⟩⟩]⟩ := by
  have hm : metaGuard line = false := metaGuard_false_of_head_add hl h3
  have hk : hunkMatch line = none := hunkMatch_none_of_head hl (by decide)
  have hplus : jsStartsWith line "+" = true := by
    simp [jsStartsWith, hl, isPrefixL]
  have hlen : line.length > 0 := length_pos_of_data_cons hl
  simp [processLine, hm, hk, hplus, hlen]

/-- The metadata branch of the scan: the line is skipped and nothing
changes. -/
theorem processLine_meta (ef : String) (st : ParseState) (line : String)
    (hm : metaGuard line = true) : processLine ef st line = st := by
  simp [processLine, hm]

/-- The hunk-header branch of the scan: both counters are reset to the
captured start numbers and one `hunk` row carrying the escaped raw
header text is appended to each of the three views. -/
theorem processLine_hunk (ef : String) (st : ParseState) (line : String)
    {o n : Nat} {ctx : String} (h : hunkMatch line = some (o, n, ctx))
    (hm : metaGuard line = false) :
    processLine ef st line =
      ⟨o, n, st.inl ++ [hunkInlineRow line],
        st.left ++ [hunkPaneRow line], st.right ++ [hunkPaneRow line]⟩ := by
  simp [processLine, hm, h]

/-- The context branch of the scan: any other non-empty line appends a
`context` row to each view (text: the line with one leading space
stripped when present, escaped), carrying the current old counter on
the left and the current new counter on the right, then increments both
counters. -/
theorem processLine_context (ef : String) (st : ParseState) (line : String)
    (hm : metaGuard line = false) (hk : hunkMatch line = none)
    (hplus : jsStartsWith line "+" = false) (hminus : jsStartsWith line "-" = false)
    (hlen : line.length > 0) :
    processLine ef st line =
      (let contextContent : String :=
        if jsStartsWith line " " then dropFirstChar line else line
      ⟨st.old + 1, st.new + 1,
        st.inl ++ [⟨.context, some st.old, some st.new,
          ⟨true, some ef, some st.new, escapeHtml contextContent⟩⟩],
        st.left ++ [⟨.context, some st.old, ⟨false, none, none, escapeHtml contextContent⟩⟩],
        st.right ++ [⟨.context, some st.new,
          ⟨true, some ef, some st.new, escapeHtml contextContent⟩⟩]⟩) := by
  simp [processLine, hm, hk, hplus, hminus, hlen]

/-- The empty-line branch of the scan: nothing is emitted and nothing
changes. -/
theorem processLine_empty (ef : String) (st : ParseState) :
    processLine ef st "" = st := by
  simp [processLine, metaGuard, jsStartsWith, isPrefixL, hunkMatch]

/-! ### Claim C5: totality and the empty input -/

/-- C5: the renderer is a total function of its inputs (it is a plain
Lean function; the source's `parseDiff` contains no throwing
operation), and the empty diff text yields empty inline and split
outputs for every path. -/
theorem parseDiff_empty_input (p : String) : parseDiff "" p = ⟨[], [], []⟩ := by
  simp [parseDiff]

/-! ### Claim C10: `---` / `+++` content lines are dropped as metadata -/

/-- C10: any diff line beginning with `---` or `+++` — including a
deletion of a source line starting with `--` or an addition of a
source line starting with `++` — is treated as metadata: the scan
emits no row in any of the three views and advances neither counter. -/
theorem tripleDash_line_dropped (ef : String) (st : ParseState) (line : String)
    (h : jsStartsWith line "---" = true ∨ jsStartsWith line "+++" = true) :
    processLine ef st line = st := by
  have hm : metaGuard line = true := by
    rcases h with h | h <;> simp [metaGuard, h]
  exact processLine_meta ef st line hm

/-- Witness for C10: the deletion of a source line `--x` (diff line
`---x`) and the addition of a source line `++y` (diff line `+++y`)
both leave the state untouched. -/
theorem tripleDash_line_dropped_witness :
    processLine "f" ⟨1, 2, [], [], []⟩ "---x" = ⟨1, 2, [], [], []⟩ ∧
    processLine "f" ⟨1, 2, [], [], []⟩ "+++y" = ⟨1, 2, [], [], []⟩ :=
  ⟨tripleDash_line_dropped "f" ⟨1, 2, [], [], []⟩ "---x" (Or.inl (by decide)),
   tripleDash_line_dropped "f" ⟨1, 2, [], [], []⟩ "+++y" (Or.inr (by decide))⟩

/-! ### Claim C2: deletion rows -/

/-- C2 counterexample: for the diff line `-abc` the claim demands text
`abc` (first character stripped) in every view showing the row's
content, but the inline view's deletion row carries the full line
`-abc`, marker included (the source escapes `line`, not
`contentWithoutPrefix`, in the inline deletion branch). -/
theorem deletion_inline_keeps_marker :
    ((parseDiff "-abc" "f").inl.map fun r => r.content.text) = ["-abc"] ∧
    escapeHtml (dropFirstChar "-abc") = "abc" ∧ ("-abc" : String) ≠ "abc" := by
  decide

/-- C2 (amended): a `-` line that is not metadata emits one deletion
row with `oldLineNumber` = the current old counter and no
`newLineNumber` in the inline view and the left pane, and an empty row
in the right pane; the left pane's text is the line with its first
character stripped, while the inline view's text is the full raw line
including the `-` marker (both escaped); the old counter then
increments. -/
theorem deletion_row_emission (ef : String) (st : ParseState) (line : String)
    (t : List Char) (hl : line.data = '-' :: t)
    (h3 : jsStartsWith line "---" = false) :
    processLine ef st line =
      ⟨st.old + 1, st.new,
        st.inl ++ [⟨.del, some st.old, none, ⟨false, none, none, escapeHtml line⟩⟩],
        st.left ++ [⟨.del, some st.old, ⟨false, none, none, escapeHtml (dropFirstChar line)⟩⟩],
        st.right ++ [emptyRow]⟩ :=
  processLine_del ef st line hl h3

/-- Witness for C2: the deletion branch evaluated at the line `-abc`
from counters (5, 7). -/
theorem deletion_row_emission_witness :
    processLine "f" ⟨5, 7, [], [], []⟩ "-abc" =
      ⟨6, 7, [⟨.del, some 5, none, ⟨false, none, none, "-abc"⟩⟩],
        [⟨.del, some 5, ⟨false, none, none, "abc"⟩⟩], [emptyRow]⟩ :=
  (deletion_row_emission "f" ⟨5, 7, [], [], []⟩ "-abc" ['a', 'b', 'c'] rfl
    (by decide)).trans (by decide)

/-! ### Claim C7: split-view shape of additions and deletions -/

/-- C7: an addition line yields an empty left cell and a populated,
editable right cell; a deletion line yields an empty right cell and a
populated, non-editable left cell. -/
theorem split_addition_deletion_shape :
    (∀ (ef : String) (st : ParseState) (line : String) (t : List Char),
        line.data = '+' :: t → jsStartsWith line "+++" = false →
        (processLine ef st line).left = st.left ++ [emptyRow] ∧
        (processLine ef st line).right = st.right ++
          [⟨.add, some st.new, ⟨true, some ef, some st.new,
            escapeHtml (dropFirstChar line)⟩⟩]) ∧
    (∀ (ef : String) (st : ParseState) (line : String) (t : List Char),
        line.data = '-' :: t → jsStartsWith line "---" = false →
        (processLine ef st line).right = st.right ++ [emptyRow] ∧
        (processLine ef st line).left = st.left ++
          [⟨.del, some st.old, ⟨false, none, none, escapeHtml (dropFirstChar line)⟩⟩]) := by
  constructor
  · intro ef st line t hl h3
    rw [processLine_add ef st line hl h3]
    exact ⟨rfl, rfl⟩
  · intro ef st line t hl h3
    rw [processLine_del ef st line hl h3]
    exact ⟨rfl, rfl⟩

/-- Witness for C7: both halves evaluated at the lines `+x` and `-y`. -/
theorem split_addition_deletion_shape_witness :
    (processLine "f" ⟨0, 0, [], [], []⟩ "+x").left = [emptyRow] ∧
    (processLine "f" ⟨0, 0, [], [], []⟩ "+x").right =
      [⟨.add, some 0, ⟨true, some "f", some 0, "x"⟩⟩] ∧
    (processLine "f" ⟨0, 0, [], [], []⟩ "-y").right = [emptyRow] ∧
    (processLine "f" ⟨0, 0, [], [], []⟩ "-y").left =
      [⟨.del, some 0, ⟨false, none, none, "y"⟩⟩] := by
  obtain ⟨h1, h2⟩ :=
    split_addition_deletion_shape.1 "f" ⟨0, 0, [], [], []⟩ "+x" ['x'] rfl (by decide)
  obtain ⟨h3, h4⟩ :=
    split_addition_deletion_shape.2 "f" ⟨0, 0, [], [], []⟩ "-y" ['y'] rfl (by decide)
  exact ⟨h1.trans (by decide), h2.trans (by decide),
    h3.trans (by decide), h4.trans (by decide)⟩

/-! ### Claim C3: malformed hunk headers -/

/-- C3 counterexample: the lone malformed hunk-header line
`@@ -a +1 @@` is not skipped — the renderer emits one row for it
(classified as a context line), where the claim demands zero rows. -/
theorem malformed_hunk_header_not_skipped :
    ((parseDiff "@@ -a +1 @@" "f").inl.map fun r => r.kind) = [RowKind.context] ∧
    (parseDiff "@@ -a +1 @@" "f").inl ≠ [] := by
  decide

/-- C3 (amended): a non-empty line whose hunk-header numbers fail to
parse (and that is neither metadata nor a `+`/`-` line) is not
skipped: it falls through to the context branch, emitting one context
row in every view and incrementing both counters, after which the rest
of the diff is rendered unchanged from the updated state — the render
is never aborted. -/
theorem malformed_hunk_header_renders_as_context (ef : String) (st : ParseState)
    (line : String) (rest : List String)
    (hm : metaGuard line = false) (hk : hunkMatch line = none)
    (hplus : jsStartsWith line "+" = false) (hminus : jsStartsWith line "-" = false)
    (hlen : line.length > 0) :
    parseLines ef st (line :: rest) =
      parseLines ef
        (let contextContent : String :=
          if jsStartsWith line " " then dropFirstChar line else line
        ⟨st.old + 1, st.new + 1,
          st.inl ++ [⟨.context, some st.old, some st.new,
            ⟨true, some ef, some st.new, escapeHtml contextContent⟩⟩],
          st.left ++ [⟨.context, some st.old, ⟨false, none, none, escapeHtml contextContent⟩⟩],
          st.right ++ [⟨.context, some st.new,
            ⟨true, some ef, some st.new, escapeHtml contextContent⟩⟩]⟩) rest := by
  show parseLines ef (processLine ef st line) rest = _
  rw [processLine_context ef st line hm hk hplus hminus hlen]

/-- Witness for C3: the malformed header `@@ -a +1 @@` followed by one
more line renders as a context row and the scan continues. -/
theorem malformed_hunk_header_renders_as_context_witness :
    hunkMatch "@@ -a +1 @@" = none ∧
    parseLines "f" ⟨0, 0, [], [], []⟩ ["@@ -a +1 @@"] =
      ⟨1, 1, [⟨.context, some 0, some 0, ⟨true, some "f", some 0, "@@ -a +1 @@"⟩⟩],
        [⟨.context, some 0, ⟨false, none, none, "@@ -a +1 @@"⟩⟩],
        [⟨.context, some 0, ⟨true, some "f", some 0, "@@ -a +1 @@"⟩⟩]⟩ :=
  ⟨by decide,
   (malformed_hunk_header_renders_as_context "f" ⟨0, 0, [], [], []⟩ "@@ -a +1 @@" []
      (by decide) (by decide) (by decide) (by decide) (by decide)).trans (by decide)⟩

/-! ### Claim C1: row alignment of the three views -/

theorem srcAligned_step (ef : String) {st : ParseState} {stS : ParseStateSrc}
    (h : SrcAligned st stS) (i : Nat) (l : String) :
    SrcAligned (processLine ef st l) (processLineSrc ef stS (i, l)) := by
  obtain ⟨ho, hn, hi, hl, hr, t1, t2⟩ := h
  unfold processLine processLineSrc SrcAligned
  by_cases hm : metaGuard l = true
  · simp only [hm, if_true]
    exact ⟨ho, hn, hi, hl, hr, t1, t2⟩
  · simp only [Bool.not_eq_true] at hm
    cases hexp : hunkMatch l with
    | some v =>
      obtain ⟨o, v'⟩ := v
      obtain ⟨n, c⟩ := v'
      simp [hm, hexp, hi, hl, hr, t1, t2]
    | none =>
      by_cases hp : jsStartsWith l "+" = true
      · simp [hm, hexp, hp, ho, hn, hi, hl, hr, t1, t2]
      · simp only [Bool.not_eq_true] at hp
        by_cases hd : jsStartsWith l "-" = true
        · simp [hm, hexp, hp, hd, ho, hn, hi, hl, hr, t1, t2]
        · simp only [Bool.not_eq_true] at hd
          by_cases hlen : l.length > 0
          · simp [hm, hexp, hp, hd, hlen, ho, hn, hi, hl, hr, t1, t2]
          · simp only [hm, hexp, hp, hd, hlen, Bool.false_eq_true, if_false]
            exact ⟨ho, hn, hi, hl, hr, t1, t2⟩

theorem srcAligned_fold (ef : String) (pls : List (Nat × String)) :
    ∀ {st : ParseState} {stS : ParseStateSrc}, SrcAligned st stS →
      SrcAligned (parseLines ef st (pls.map Prod.snd)) (parseLinesSrc ef stS pls) := by
  induction pls with
  | nil => intro st stS h; exact h
  | cons p ps ih =>
    intro st stS h
    obtain ⟨i, l⟩ := p
    simpa [parseLines, parseLinesSrc] using ih (srcAligned_step ef h i l)

/-- C1: the three rendered views are row-aligned.  The inline view and
the two split panes are the tag-erasures of the tagged scan, the three
tag sequences coincide (so the row at any index in each view comes
from the same source diff line), and in particular the three views
have the same number of rows. -/
theorem row_alignment (d p : String) :
    (parseDiff d p).inl = (parseDiffSrc d p).1.map Prod.fst ∧
    (parseDiff d p).left = (parseDiffSrc d p).2.1.map Prod.fst ∧
    (parseDiff d p).right = (parseDiffSrc d p).2.2.map Prod.fst ∧
    (parseDiffSrc d p).1.map Prod.snd = (parseDiffSrc d p).2.1.map Prod.snd ∧
    (parseDiffSrc d p).2.1.map Prod.snd = (parseDiffSrc d p).2.2.map Prod.snd ∧
    (parseDiff d p).inl.length = (parseDiff d p).left.length ∧
    (parseDiff d p).left.length = (parseDiff d p).right.length := by
  by_cases hd : d = ""
  · subst hd
    simp [parseDiff, parseDiffSrc]
  · have h0 : SrcAligned ⟨0, 0, [], [], []⟩ (⟨0, 0, [], [], []⟩ : ParseStateSrc) :=
      ⟨rfl, rfl, rfl, rfl, rfl, rfl, rfl⟩
    have hfold := srcAligned_fold (escapeHtml p) ((jsSplit '\n' d).enum) h0
    rw [List.enum_map_snd] at hfold
    obtain ⟨ho, hn, hi, hl, hr, t1, t2⟩ := hfold
    have len1 : (parseLinesSrc (escapeHtml p) ⟨0, 0, [], [], []⟩
        ((jsSplit '\n' d).enum)).inl.length =
        (parseLinesSrc (escapeHtml p) ⟨0, 0, [], [], []⟩
        ((jsSplit '\n' d).enum)).left.length := by
      have := congrArg List.length t1
      simpa using this
    have len2 : (parseLinesSrc (escapeHtml p) ⟨0, 0, [], [], []⟩
        ((jsSplit '\n' d).enum)).left.length =
        (parseLinesSrc (escapeHtml p) ⟨0, 0, [], [], []⟩
        ((jsSplit '\n' d).enum)).right.length := by
      have := congrArg List.length t2
      simpa using this
    unfold parseDiff parseDiffSrc
    simp only [hd, if_false]
    refine ⟨hi, hl, hr, t1, t2, ?_, ?_⟩
    · simp [hi, hl, len1]
    · simp [hl, hr, len2]

/-! ### Claim C6: hunk headers -/

theorem digitChar_isDigit (n : Nat) (h : n < 10) : (digitChar n).isDigit = true := by
  interval_cases n <;> decide

theorem digitChar_val (n : Nat) (h : n < 10) : (digitChar n).toNat - 48 = n := by
  interval_cases n <;> decide

theorem natToDigits_all_digit (n : Nat) : ∀ c ∈ natToDigits n, c.isDigit = true := by
  induction n using Nat.strong_induction_on with
  | _ n ih =>
    unfold natToDigits
    split
    · next h =>
      intro c hc
      simp at hc
      subst hc
      exact digitChar_isDigit n h
    · next h =>
      intro c hc
      rw [List.mem_append] at hc
      rcases hc with hc | hc
      · exact ih (n / 10) (Nat.div_lt_self (by omega) (by omega)) c hc
      · simp at hc
        subst hc
        exact digitChar_isDigit (n % 10) (Nat.mod_lt n (by omega))

theorem natToDigits_ne_nil (n : Nat) : natToDigits n ≠ [] := by
  unfold natToDigits
  split <;> simp

theorem digitsVal_append_digit (l : List Char) (c : Char) :
    digitsVal (l ++ [c]) = digitsVal l * 10 + (c.toNat - 48) := by
  simp [digitsVal, List.foldl_append]

theorem digitsVal_natToDigits (n : Nat) : digitsVal (natToDigits n) = n := by
  induction n using Nat.strong_induction_on with
  | _ n ih =>
    unfold natToDigits
    split
    · next h =>
      have := digitChar_val n h
      simp [digitsVal]
      omega
    · next h =>
      rw [digitsVal_append_digit, ih (n / 10) (Nat.div_lt_self (by omega) (by omega)),
        digitChar_val (n % 10) (Nat.mod_lt n (by omega))]
      omega

theorem takeWhile_all_append (p : Char → Bool) (l r : List Char)
    (hl : ∀ c ∈ l, p c = true) (hr : ∀ c, r.head? = some c → p c = false) :
    (l ++ r).takeWhile p = l ∧ (l ++ r).dropWhile p = r := by
  induction l with
  | nil =>
    simp only [List.nil_append]
    cases r with
    | nil => simp
    | cons c t =>
      have := hr c rfl
      simp [List.takeWhile_cons, List.dropWhile_cons, this]
  | cons a l ih =>
    have ha := hl a (List.mem_cons_self a l)
    have hrec := ih fun c hc => hl c (List.mem_cons_of_mem a hc)
    simp [List.takeWhile_cons, List.dropWhile_cons, ha, hrec]

theorem parseDigits_natToDigits (n : Nat) (r : List Char)
    (hr : ∀ c, r.head? = some c → c.isDigit = false) :
    parseDigits (natToDigits n ++ r) = some (n, r) := by
  obtain ⟨ht, hd⟩ :=
    takeWhile_all_append Char.isDigit (natToDigits n) r (natToDigits_all_digit n) hr
  simp [parseDigits, ht, hd, natToDigits_ne_nil, digitsVal_natToDigits]

theorem countStr_head_not_digit (oc : Option Nat) (r : List Char) :
    ∀ c, ((countStr oc).data ++ ' ' :: r).head? = some c → c.isDigit = false := by
  intro c hc
  cases oc with
  | none =>
    have h0 : (countStr none).data = [] := rfl
    rw [h0, List.nil_append] at hc
    simp at hc
    subst hc
    decide
  | some k =>
    have h0 : (countStr (some k)).data = ',' :: natToDigits k := rfl
    rw [h0, List.cons_append] at hc
    simp at hc
    subst hc
    decide

theorem skipCount_countStr (oc : Option Nat) (r : List Char) :
    skipCount ((countStr oc).data ++ ' ' :: r) = ' ' :: r := by
  cases oc with
  | none => rfl
  | some k =>
    have h0 : (countStr (some k)).data ++ ' ' :: r = ',' :: (natToDigits k ++ ' ' :: r) := by
      show (',' :: natToDigits k) ++ ' ' :: r = _
      simp
    rw [h0]
    show (natToDigits k ++ ' ' :: r).dropWhile Char.isDigit = ' ' :: r
    refine (takeWhile_all_append Char.isDigit (natToDigits k) (' ' :: r)
      (natToDigits_all_digit k) ?_).2
    intro c hc
    simp at hc
    subst hc
    decide

theorem hunkMatch_shape {line : String} {v : Nat × Nat × String}
    (h : hunkMatch line = some v) :
    ∃ r, line.data = '@' :: '@' :: ' ' :: '-' :: r := by
  unfold hunkMatch at h
  split at h
  · next r heq => exact ⟨r, heq⟩
  · exact absurd h (by simp)

theorem metaGuard_false_of_hunk {line : String} {v : Nat × Nat × String}
    (h : hunkMatch line = some v) : metaGuard line = false := by
  obtain ⟨r, hl⟩ := hunkMatch_shape h
  have h1 : jsStartsWith line "diff --git" = false :=
    jsStartsWith_false_of_head hl rfl (by decide)
  have h2 : jsStartsWith line "index " = false :=
    jsStartsWith_false_of_head hl rfl (by decide)
  have h3 : jsStartsWith line "---" = false :=
    jsStartsWith_false_of_head hl rfl (by decide)
  have h4 : jsStartsWith line "+++" = false :=
    jsStartsWith_false_of_head hl rfl (by decide)
  simp [metaGuard, h1, h2, h3, h4]

/-- C6: (i) every well-formed hunk header
`@@ -<oldStart>[,<oldCount>] +<newStart>[,<newCount>] @@<context>`
matches the hunk pattern with captures `oldStart`, `newStart` and the
context — the declared counts are consumed but not captured, so they
cannot affect anything but the raw header text itself; (ii) processing
any line that matches the pattern sets the old counter to `oldStart`
and the new counter to `newStart` and emits exactly one hunk-header
row carrying the escaped raw header text in the inline view and in
both panes. -/
theorem hunk_header_behavior :
    (∀ (o : Nat) (oc : Option Nat) (n : Nat) (nc : Option Nat) (ctx : String),
        hunkMatch (mkHunkHeader o oc n nc ctx) = some (o, n, ctx)) ∧
    (∀ (ef : String) (st : ParseState) (line : String) (o n : Nat) (ctx : String),
        hunkMatch line = some (o, n, ctx) →
        processLine ef st line =
          ⟨o, n, st.inl ++ [hunkInlineRow line],
            st.left ++ [hunkPaneRow line], st.right ++ [hunkPaneRow line]⟩) := by
  constructor
  · intro o oc n nc ctx
    have e1 : ("@@ -" : String).data = ['@', '@', ' ', '-'] := rfl
    have e2 : (" +" : String).data = [' ', '+'] := rfl
    have e3 : (" @@" : String).data = [' ', '@', '@'] := rfl
    have e4 : ∀ m, (natToString m).data = natToDigits m := fun _ => rfl
    have hdata : (mkHunkHeader o oc n nc ctx).data =
        '@' :: '@' :: ' ' :: '-' ::
          (natToDigits o ++ ((countStr oc).data ++ ' ' :: '+' ::
            (natToDigits n ++ ((countStr nc).data ++ ' ' :: '@' :: '@' :: ctx.data)))) := by
      simp [mkHunkHeader, String.data_append, e1, e2, e3, e4]
    unfold hunkMatch
    rw [hdata]
    show hunkMatchAfterOld (natToDigits o ++ ((countStr oc).data ++ ' ' :: '+' ::
      (natToDigits n ++ ((countStr nc).data ++ ' ' :: '@' :: '@' :: ctx.data)))) =
      some (o, n, ctx)
    unfold hunkMatchAfterOld
    rw [parseDigits_natToDigits o _ (countStr_head_not_digit oc _)]
    show hunkMatchMid o (skipCount ((countStr oc).data ++ ' ' :: '+' ::
      (natToDigits n ++ ((countStr nc).data ++ ' ' :: '@' :: '@' :: ctx.data)))) =
      some (o, n, ctx)
    rw [skipCount_countStr oc]
    show hunkMatchAfterNew o
      (natToDigits n ++ ((countStr nc).data ++ ' ' :: '@' :: '@' :: ctx.data)) =
      some (o, n, ctx)
    unfold hunkMatchAfterNew
    rw [parseDigits_natToDigits n _ (countStr_head_not_digit nc _)]
    show hunkMatchEnd o n (skipCount ((countStr nc).data ++ ' ' :: '@' :: '@' :: ctx.data)) =
      some (o, n, ctx)
    rw [skipCount_countStr nc]
    show hunkMatchEnd o n (' ' :: '@' :: '@' :: ctx.data) = some (o, n, ctx)
    rfl
  · intro ef st line o n ctx h
    exact processLine_hunk ef st line h (metaGuard_false_of_hunk h)

/-- Witness for C6: part (i) at `oldStart = 10`, `oldCount = 5`,
`newStart = 12`, `newCount = 7`, context ` section`; part (ii) at the
concrete header line `@@ -10,5 +12,7 @@ section` from counters (3, 4),
which resets the counters to 10 and 12. -/
theorem hunk_header_behavior_witness :
    hunkMatch (mkHunkHeader 10 (some 5) 12 (some 7) " section") = some (10, 12, " section") ∧
    processLine "f" ⟨3, 4, [], [], []⟩ "@@ -10,5 +12,7 @@ section" =
      ⟨10, 12, [⟨.hunk, none, none, ⟨false, none, none, "@@ -10,5 +12,7 @@ section"⟩⟩],
        [⟨.hunk, none, ⟨false, none, none, "@@ -10,5 +12,7 @@ section"⟩⟩],
        [⟨.hunk, none, ⟨false, none, none, "@@ -10,5 +12,7 @@ section"⟩⟩]⟩ :=
  ⟨hunk_header_behavior.1 10 (some 5) 12 (some 7) " section",
   (hunk_header_behavior.2 "f" ⟨3, 4, [], [], []⟩ "@@ -10,5 +12,7 @@ section" 10 12
      " section" (by decide)).trans (by decide)⟩

/-! ### Claim C4: positivity of carried line numbers -/

theorem processLine_pos (ef : String) (st : ParseState) (l : String)
    (hok : headerOkB l = true) (h1 : 1 ≤ st.old) (h2 : 1 ≤ st.new) (h3 : StatePos st) :
    StatePos (processLine ef st l) ∧
      1 ≤ (processLine ef st l).old ∧ 1 ≤ (processLine ef st l).new := by
  obtain ⟨hi, hl, hr⟩ := h3
  unfold processLine
  by_cases hm : metaGuard l = true
  · simp only [hm, if_true]
    exact ⟨⟨hi, hl, hr⟩, h1, h2⟩
  · simp only [Bool.not_eq_true] at hm
    cases hexp : hunkMatch l with
    | some v =>
      obtain ⟨o, v'⟩ := v
      obtain ⟨n, c⟩ := v'
      have ho : 1 ≤ o ∧ 1 ≤ n := by
        simp [headerOkB, hexp] at hok
        omega
      simp only [hm, Bool.false_eq_true, if_false]
      refine ⟨⟨?_, ?_, ?_⟩, ho.1, ho.2⟩
      · intro r hmem
        rw [List.mem_append] at hmem
        rcases hmem with hmem | hmem
        · exact hi r hmem
        · simp at hmem
          subst hmem
          simp [inlineRowPos, hunkInlineRow]
      · intro r hmem
        rw [List.mem_append] at hmem
        rcases hmem with hmem | hmem
        · exact hl r hmem
        · simp at hmem
          subst hmem
          simp [paneRowPosLeft, hunkPaneRow]
      · intro r hmem
        rw [List.mem_append] at hmem
        rcases hmem with hmem | hmem
        · exact hr r hmem
        · simp at hmem
          subst hmem
          simp [paneRowPosRight, hunkPaneRow]
    | none =>
      by_cases hp : jsStartsWith l "+" = true
      · simp only [hm, hexp, hp, Bool.false_eq_true, if_false, if_true]
        refine ⟨⟨?_, ?_, ?_⟩, h1, by omega⟩
        · intro r hmem
          rw [List.mem_append] at hmem
          rcases hmem with hmem | hmem
          · exact hi r hmem
          · simp at hmem
            subst hmem
            simp [inlineRowPos]
            omega
        · intro r hmem
          rw [List.mem_append] at hmem
          rcases hmem with hmem | hmem
          · exact hl r hmem
          · simp at hmem
            subst hmem
            simp [paneRowPosLeft, emptyRow]
        · intro r hmem
          rw [List.mem_append] at hmem
          rcases hmem with hmem | hmem
          · exact hr r hmem
          · simp at hmem
            subst hmem
            simp [paneRowPosRight]
            omega
      · simp only [Bool.not_eq_true] at hp
        by_cases hd : jsStartsWith l "-" = true
        · simp only [hm, hexp, hp, hd, Bool.false_eq_true, if_false, if_true]
          refine ⟨⟨?_, ?_, ?_⟩, by omega, h2⟩
          · intro r hmem
            rw [List.mem_append] at hmem
            rcases hmem with hmem | hmem
            · exact hi r hmem
            · simp at hmem
              subst hmem
              simp [inlineRowPos]
              omega
          · intro r hmem
            rw [List.mem_append] at hmem
            rcases hmem with hmem | hmem
            · exact hl r hmem
            · simp at hmem
              subst hmem
              simp [paneRowPosLeft]
              omega
          · intro r hmem
            rw [List.mem_append] at hmem
            rcases hmem with hmem | hmem
            · exact hr r hmem
            · simp at hmem
              subst hmem
              simp [paneRowPosRight, emptyRow]
        · simp only [Bool.not_eq_true] at hd
          by_cases hlen : l.length > 0
          · simp only [hm, hexp, hp, hd, hlen, Bool.false_eq_true, if_false, if_true]
            refine ⟨⟨?_, ?_, ?_⟩, by omega, by omega⟩
            · intro r hmem
              rw [List.mem_append] at hmem
              rcases hmem with hmem | hmem
              · exact hi r hmem
              · simp at hmem
                subst hmem
                simp [inlineRowPos]
                omega
            · intro r hmem
              rw [List.mem_append] at hmem
              rcases hmem with hmem | hmem
              · exact hl r hmem
              · simp at hmem
                subst hmem
                simp [paneRowPosLeft]
                omega
            · intro r hmem
              rw [List.mem_append] at hmem
              rcases hmem with hmem | hmem
              · exact hr r hmem
              · simp at hmem
                subst hmem
                simp [paneRowPosRight]
                omega
          · simp only [hm, hexp, hp, hd, hlen, Bool.false_eq_true, if_false]
            exact ⟨⟨hi, hl, hr⟩, h1, h2⟩

theorem parseLines_pos (ef : String) (lines : List String) :
    ∀ st : ParseState, headersOk lines = true → 1 ≤ st.old → 1 ≤ st.new → StatePos st →
      StatePos (parseLines ef st lines) := by
  induction lines with
  | nil => intro st _ _ _ h3; exact h3
  | cons l ls ih =>
    intro st hok h1 h2 h3
    have hok' : headerOkB l = true ∧ headersOk ls = true := by
      simpa [headersOk] using hok
    obtain ⟨hpos, hc1, hc2⟩ := processLine_pos ef st l hok'.1 h1 h2 h3
    simpa [parseLines] using ih (processLine ef st l) hok'.2 hc1 hc2 hpos

theorem parseLines_pos_of_noContent (ef : String) (lines : List String) :
    ∀ st : ParseState, headersOk lines = true → noContentBeforeHeader lines = true →
      StatePos st → StatePos (parseLines ef st lines) := by
  induction lines with
  | nil => intro st _ _ h3; exact h3
  | cons l ls ih =>
    intro st hok hnc h3
    have hok' : headerOkB l = true ∧ headersOk ls = true := by
      simpa [headersOk] using hok
    by_cases hskip : (metaGuard l || l == "") = true
    · have hstep : processLine ef st l = st := by
        rcases Bool.or_eq_true_iff.mp hskip with h | h
        · exact processLine_meta ef st l h
        · have : l = "" := by simpa using h
          subst this
          exact processLine_empty ef st
      have hnc' : noContentBeforeHeader ls = true := by
        simpa [noContentBeforeHeader, hskip] using hnc
      have := ih st hok'.2 hnc' h3
      simpa [parseLines, hstep] using this
    · have hsome : (hunkMatch l).isSome = true := by
        simpa [noContentBeforeHeader, hskip] using hnc
      rw [Option.isSome_iff_exists] at hsome
      obtain ⟨v, hexp⟩ := hsome
      obtain ⟨o, v'⟩ := v
      obtain ⟨n, c⟩ := v'
      have ho : 1 ≤ o ∧ 1 ≤ n := by
        simp [headerOkB, hexp] at hok'
        omega
      obtain ⟨hi, hl, hr⟩ := h3
      have hstep := processLine_hunk ef st l hexp (metaGuard_false_of_hunk hexp)
      have hpos : StatePos (processLine ef st l) := by
        rw [hstep]
        refine ⟨?_, ?_, ?_⟩
        · intro r hmem
          rw [List.mem_append] at hmem
          rcases hmem with hmem | hmem
          · exact hi r hmem
          · simp at hmem
            subst hmem
            simp [inlineRowPos, hunkInlineRow]
        · intro r hmem
          rw [List.mem_append] at hmem
          rcases hmem with hmem | hmem
          · exact hl r hmem
          · simp at hmem
            subst hmem
            simp [paneRowPosLeft, hunkPaneRow]
        · intro r hmem
          rw [List.mem_append] at hmem
          rcases hmem with hmem | hmem
          · exact hr r hmem
          · simp at hmem
            subst hmem
            simp [paneRowPosRight, hunkPaneRow]
      have hco : 1 ≤ (processLine ef st l).old := by rw [hstep]; exact ho.1
      have hcn : 1 ≤ (processLine ef st l).new := by rw [hstep]; exact ho.2
      have := parseLines_pos ef ls (processLine ef st l) hok'.2 hco hcn hpos
      simpa [parseLines] using this

/-- C4 counterexample: for the input consisting of the single context
line ` x` (no hunk header precedes it), the emitted context row
carries `oldLineNumber = 0` and `newLineNumber = 0` — the counters
start at 0, so the claimed positivity fails. -/
theorem line_numbers_not_always_positive :
    ((parseDiff " x" "f").inl.map fun r => (r.kind, r.oldNum, r.newNum)) =
      [(RowKind.context, some 0, some 0)] ∧
    ¬ (∀ r ∈ (parseDiff " x" "f").inl, inlineRowPos r) := by
  decide

/-- C4 (amended): the counters start at 0, so rows emitted before any
hunk header (or under a header declaring a 0 start) can carry 0.
Provided every hunk header among the input's lines declares positive
start numbers and no content line precedes the first hunk header,
every context/deletion row carries `oldLineNumber ≥ 1` and every
context/addition row carries `newLineNumber ≥ 1`, in all three
views. -/
theorem positive_line_numbers (d p : String)
    (hok : headersOk (jsSplit '\n' d) = true)
    (hnc : noContentBeforeHeader (jsSplit '\n' d) = true) :
    (∀ r ∈ (parseDiff d p).inl, inlineRowPos r) ∧
    (∀ r ∈ (parseDiff d p).left, paneRowPosLeft r) ∧
    (∀ r ∈ (parseDiff d p).right, paneRowPosRight r) := by
  by_cases hd : d = ""
  · subst hd
    simp [parseDiff, inlineRowPos, paneRowPosLeft, paneRowPosRight]
  · unfold parseDiff
    simp only [hd, if_false]
    exact parseLines_pos_of_noContent (escapeHtml p) (jsSplit '\n' d) ⟨0, 0, [], [], []⟩
      hok hnc ⟨by simp, by simp, by simp⟩

/-- Witness for C4: a one-hunk diff whose header starts at old=1,
new=1, followed by a context, an addition and a deletion line; all
emitted rows carry positive numbers. -/
theorem positive_line_numbers_witness :
    headersOk (jsSplit '\n' "@@ -1 +1 @@\n x\n+a\n-b") = true ∧
    noContentBeforeHeader (jsSplit '\n' "@@ -1 +1 @@\n x\n+a\n-b") = true ∧
    (∀ r ∈ (parseDiff "@@ -1 +1 @@\n x\n+a\n-b" "f").inl, inlineRowPos r) :=
  ⟨by decide, by decide,
   (positive_line_numbers "@@ -1 +1 @@\n x\n+a\n-b" "f" (by decide) (by decide)).1⟩

/-! ### Claim C8: escaping of all rendered text -/

theorem replaceAllChar_append (c : Char) (r a b : List Char) :
    replaceAllChar c r (a ++ b) = replaceAllChar c r a ++ replaceAllChar c r b := by
  induction a with
  | nil => rfl
  | cons x xs ih =>
    by_cases hx : x = c <;> simp [replaceAllChar, hx, ih]

theorem escPipe_append (a b : List Char) :
    escPipe (a ++ b) = escPipe a ++ escPipe b := by
  simp [escPipe, replaceAllChar_append]

theorem escPipe_eq_escapeL (l : List Char) : escPipe l = escapeL l := by
  induction l with
  | nil => rfl
  | cons x xs ih =>
    have hsplit : x :: xs = [x] ++ xs := rfl
    rw [hsplit, escPipe_append, ih]
    have hL : escapeL ([x] ++ xs) = escChar x ++ escapeL xs := rfl
    rw [hL]
    congr 1
    by_cases h1 : x = '&'
    · subst h1; decide
    by_cases h2 : x = '<'
    · subst h2; decide
    by_cases h3 : x = '>'
    · subst h3; decide
    by_cases h4 : x = '"'
    · subst h4; decide
    simp [escPipe, replaceAllChar, escChar, h1, h2, h3, h4]

theorem escapeHtml_eq_escapeSpec (s : String) : escapeHtml s = escapeSpec s := by
  have h1 : escapeHtml s = ⟨escPipe s.data⟩ := rfl
  rw [h1, escPipe_eq_escapeL]
  rfl

theorem processLine_esc (ef : String) (hef : ∃ u, ef = escapeHtml u)
    (st : ParseState) (l : String) (h : StateEsc st) :
    StateEsc (processLine ef st l) := by
  obtain ⟨hi, hl, hr⟩ := h
  unfold processLine
  by_cases hm : metaGuard l = true
  · simp only [hm, if_true]
    exact ⟨hi, hl, hr⟩
  · simp only [Bool.not_eq_true] at hm
    cases hexp : hunkMatch l with
    | some v =>
      obtain ⟨o, v'⟩ := v
      obtain ⟨n, c⟩ := v'
      simp only [hm, Bool.false_eq_true, if_false]
      refine ⟨?_, ?_, ?_⟩ <;> intro r hmem <;> rw [List.mem_append] at hmem <;>
        rcases hmem with hmem | hmem
      · exact hi r hmem
      · simp at hmem
        subst hmem
        exact ⟨⟨l, rfl⟩, by simp [hunkInlineRow]⟩
      · exact hl r hmem
      · simp at hmem
        subst hmem
        exact ⟨⟨l, rfl⟩, by simp [hunkPaneRow]⟩
      · exact hr r hmem
      · simp at hmem
        subst hmem
        exact ⟨⟨l, rfl⟩, by simp [hunkPaneRow]⟩
    | none =>
      by_cases hp : jsStartsWith l "+" = true
      · simp only [hm, hexp, hp, Bool.false_eq_true, if_false, if_true]
        refine ⟨?_, ?_, ?_⟩ <;> intro r hmem <;> rw [List.mem_append] at hmem <;>
          rcases hmem with hmem | hmem
        · exact hi r hmem
        · simp at hmem
          subst hmem
          exact ⟨⟨_, rfl⟩, fun f hf => by simp at hf; subst hf; exact hef⟩
        · exact hl r hmem
        · simp at hmem
          subst hmem
          exact ⟨⟨"", rfl⟩, by simp [emptyRow]⟩
        · exact hr r hmem
        · simp at hmem
          subst hmem
          exact ⟨⟨_, rfl⟩, fun f hf => by simp at hf; subst hf; exact hef⟩
      · simp only [Bool.not_eq_true] at hp
        by_cases hd : jsStartsWith l "-" = true
        · simp only [hm, hexp, hp, hd, Bool.false_eq_true, if_false, if_true]
          refine ⟨?_, ?_, ?_⟩ <;> intro r hmem <;> rw [List.mem_append] at hmem <;>
            rcases hmem with hmem | hmem
          · exact hi r hmem
          · simp at hmem
            subst hmem
            exact ⟨⟨l, rfl⟩, by simp⟩
          · exact hl r hmem
          · simp at hmem
            subst hmem
            exact ⟨⟨_, rfl⟩, by simp⟩
          · exact hr r hmem
          · simp at hmem
            subst hmem
            exact ⟨⟨"", rfl⟩, by simp [emptyRow]⟩
        · simp only [Bool.not_eq_true] at hd
          by_cases hlen : l.length > 0
          · simp only [hm, hexp, hp, hd, hlen, Bool.false_eq_true, if_false, if_true]
            refine ⟨?_, ?_, ?_⟩ <;> intro r hmem <;> rw [List.mem_append] at hmem <;>
              rcases hmem with hmem | hmem
            · exact hi r hmem
            · simp at hmem
              subst hmem
              exact ⟨⟨_, rfl⟩, fun f hf => by simp at hf; subst hf; exact hef⟩
            · exact hl r hmem
            · simp at hmem
              subst hmem
              exact ⟨⟨_, rfl⟩, by simp⟩
            · exact hr r hmem
            · simp at hmem
              subst hmem
              exact ⟨⟨_, rfl⟩, fun f hf => by simp at hf; subst hf; exact hef⟩
          · simp only [hm, hexp, hp, hd, hlen, Bool.false_eq_true, if_false]
            exact ⟨hi, hl, hr⟩

theorem parseLines_esc (ef : String) (hef : ∃ u, ef = escapeHtml u)
    (lines : List String) :
    ∀ st : ParseState, StateEsc st → StateEsc (parseLines ef st lines) := by
  induction lines with
  | nil => intro st h; exact h
  | cons l ls ih =>
    intro st h
    simpa [parseLines] using ih (processLine ef st l) (processLine_esc ef hef st l h)

/-- C8: (i) `escapeHtml` coincides with the character-wise escaping
map, so every occurrence of each of the characters `&`, `<`, `>`, `"`
is replaced by its escape sequence; (ii) every text field placed into
the renderer's output — the content of every row in the inline view
and in both split panes, and every embedded `data-file` attribute — is
an image of `escapeHtml`. -/
theorem all_rendered_text_escaped :
    (∀ s, escapeHtml s = escapeSpec s) ∧
    (∀ d p, (∀ r ∈ (parseDiff d p).inl, CellEsc r.content) ∧
      (∀ r ∈ (parseDiff d p).left, CellEsc r.content) ∧
      (∀ r ∈ (parseDiff d p).right, CellEsc r.content)) := by
  refine ⟨escapeHtml_eq_escapeSpec, ?_⟩
  intro d p
  by_cases hd : d = ""
  · subst hd
    simp [parseDiff]
  · unfold parseDiff
    simp only [hd, if_false]
    exact parseLines_esc (escapeHtml p) ⟨p, rfl⟩ (jsSplit '\n' d) ⟨0, 0, [], [], []⟩
      ⟨by simp, by simp, by simp⟩

/-- Witness for C8: the pointwise equation at a string containing all
four escaped characters, and the escapedness of the addition row
produced by the diff line `+a<b`. -/
theorem all_rendered_text_escaped_witness :
    escapeHtml "a<b\"&c>" = escapeSpec "a<b\"&c>" ∧
    CellEsc (⟨RowKind.add, none, some 0,
      ⟨true, some "f", some 0, "a&lt;b"⟩⟩ : InlineRow).content :=
  ⟨all_rendered_text_escaped.1 "a<b\"&c>",
   (all_rendered_text_escaped.2 "+a<b" "f").1
     ⟨RowKind.add, none, some 0, ⟨true, some "f", some 0, "a&lt;b"⟩⟩ (by decide)⟩

/-! ### Claim C9: binary-file sentinel in the diff summary -/

theorem splitOnCharL_not_mem {c : Char} {l : List Char} (h : c ∉ l) :
    splitOnCharL c l = [l] := by
  induction l with
  | nil => rfl
  | cons x xs ih =>
    have hx : ¬ x = c := fun he => h (he ▸ List.mem_cons_self x xs)
    have hxs : c ∉ xs := fun hm => h (List.mem_cons_of_mem x hm)
    simp [splitOnCharL, hx, ih hxs]

theorem mem_dropWhile_of_not (p : Char → Bool) {c : Char} {l : List Char}
    (hc : c ∈ l) (hp : p c = false) : c ∈ l.dropWhile p := by
  have := List.takeWhile_append_dropWhile (p := p) (l := l)
  rw [← this] at hc
  rcases List.mem_append.mp hc with h | h
  · exact absurd (List.mem_takeWhile_imp h) (by simp [hp])
  · exact h

theorem jsTrim_ne_empty {s : String} {c : Char}
    (hc : c ∈ s.data) (hp : c.isWhitespace = false) : jsTrim s ≠ "" := by
  intro he
  have hdat : (((s.data.dropWhile Char.isWhitespace).reverse.dropWhile
      Char.isWhitespace).reverse : List Char) = [] := congrArg String.data he
  rw [List.reverse_eq_nil_iff, List.dropWhile_eq_nil_iff] at hdat
  have h1 : c ∈ s.data.dropWhile Char.isWhitespace :=
    mem_dropWhile_of_not Char.isWhitespace hc hp
  have h2 : c ∈ (s.data.dropWhile Char.isWhitespace).reverse :=
    List.mem_reverse.mpr h1
  have := hdat c h2
  simp [hp] at this

/-- C9: a numeric-stat line whose additions and deletions fields are
the `-` sentinel (a binary file) parses without failure to a record
with 0 for both counts: for every tab-free, newline-free path `p`, the
summary of the single line `-<TAB>-<TAB>p` is the one record for `p`
with `additions = 0`, `deletions = 0` (and default status
`modified`). -/
theorem binary_stat_line_zero_counts (p : String)
    (ht : '\t' ∉ p.data) (hn : '\n' ∉ p.data) :
    getDiffSummary ("-\t-\t" ++ p) "" = [⟨p, .modified, some 0, some 0⟩] := by
  have hdata : ("-\t-\t" ++ p).data = '-' :: '\t' :: '-' :: '\t' :: p.data := rfl
  have hline : jsSplit '\n' ("-\t-\t" ++ p) = [⟨'-' :: '\t' :: '-' :: '\t' :: p.data⟩] := by
    unfold jsSplit
    rw [hdata, splitOnCharL_not_mem (by simp [hn])]
    rfl
  set line : String := ⟨'-' :: '\t' :: '-' :: '\t' :: p.data⟩ with hline_def
  have hkeep : jsTrim line ≠ "" :=
    jsTrim_ne_empty (c := '-') (by simp [hline_def]) (by decide)
  have hsplitT : splitOnCharL '\t' ('-' :: '\t' :: '-' :: '\t' :: p.data) =
      [['-'], ['-'], p.data] := by
    rw [show ('-' :: '\t' :: '-' :: '\t' :: p.data) =
      '-' :: '\t' :: '-' :: '\t' :: p.data from rfl]
    simp [splitOnCharL, splitOnCharL_not_mem ht]
  have hparse : parseNumstatLine line = some ⟨p, .modified, some 0, some 0⟩ := by
    unfold parseNumstatLine jsSplit
    rw [show line.data = '-' :: '\t' :: '-' :: '\t' :: p.data from rfl, hsplitT]
    rfl
  have hse : statusEntries "" = [] := by decide
  unfold getDiffSummary
  rw [hline, hse, List.filter_cons]
  rw [if_pos (by simpa using hkeep)]
  simp [hparse, mapGet]

/-- Witness for C9: the spec's own example line `-<TAB>-<TAB>binary.png`
yields `additions = 0, deletions = 0` for `binary.png`. -/
theorem binary_stat_line_zero_counts_witness :
    getDiffSummary ("-\t-\t" ++ "binary.png") "" =
      [⟨"binary.png", .modified, some 0, some 0⟩] :=
  binary_stat_line_zero_counts "binary.png" (by decide) (by decide)

end DiffViewer
